import Mathlib

set_option maxHeartbeats 1000000

/-! Verification of the byte-stream conversion library in src/lib.rs.

Bytes are modelled as natural numbers and byte buffers as lists of bytes.
The external platform conversion primitive (POSIX iconv, reached through the
ffi module) is outside the repository; it is modelled at the boundary the
specification gives for it: a stateless converter that consumes the input one
unit (one character's byte sequence) at a time, described by a `step` function
together with the boundary contract recorded as proof fields.  The growable
byte buffer (dyn_buf::VecBuf, an external crate) is modelled from the
specification's GrowableBuffer description: `prepare_at_least(0)` exposes a
writable window of at least the constructor's `min_write` bytes, growth at
least doubles the capacity, `commit`/`consume` move the write/read cursors.
Everything else is translated directly from src/lib.rs. -/

/-- Result of parsing one conversion unit from the front of the input: the
boundary interface of the platform conversion primitive. -/
inductive StepRes where
  | unit (consumed : Nat) (out : List Nat)
  | incomplete
  | invalid

/-- Model of the external conversion primitive bound to one (from, to)
encoding pair (the ConversionEngine boundary).  `step l` parses the first
conversion unit of `l`: either a unit consuming `consumed` input bytes and
producing the output bytes `out`, or the report that `l` is a proper prefix
of a unit (incomplete), or that `l` starts with an illegal sequence
(invalid).  The contract fields: a unit consumes at least one and at most all
available bytes, a converted character occupies at least one output byte, a
recognised unit stays the same when the input is extended to the right, and
an illegal sequence stays illegal when the input is extended. -/
structure UnitEngine where
  step : List Nat → StepRes
  consume_pos : ∀ l c o, step l = .unit c o → 0 < c
  consume_le : ∀ l c o, step l = .unit c o → c ≤ l.length
  out_ne : ∀ l c o, step l = .unit c o → o ≠ []
  step_mono : ∀ l ext c o, step l = .unit c o → step (l ++ ext) = .unit c o
  invalid_mono : ∀ l ext, step l = .invalid → step (l ++ ext) = .invalid

/-- The library's error enum, mirroring `enum IconvError` (src/lib.rs 40-47). -/
inductive IconvError where
  | ConversionNotSupport
  | OsError (code : Int)
  | IncompleteInput
  | InvalidInput
  | NotSufficientOutput

/-- Status of one `Iconv::convert` call: `Ok`, or the errno-derived error
(E2BIG, EINVAL, EILSEQ) as mapped in src/lib.rs 212-217. -/
inductive ConvStatus where
  | ok
  | noSpace
  | incomplete
  | invalid

/-- Outcome of one `Iconv::convert` call: bytes read from the input, bytes
written to the output (kept as the list of output bytes, so bytes_written is
`out.length`), and the status. -/
structure ConvRes where
  read : Nat
  out : List Nat
  status : ConvStatus

/-- One `Iconv::convert` call (src/lib.rs 174-220) against the engine model:
whole units are consumed from the front of `input` as long as their output
fits into the `cap` output bytes still available; the call stops with `ok`
when the input is exhausted, `noSpace` when the next unit's output does not
fit, and `incomplete`/`invalid` as reported by the engine.  The recursion is
by fuel; `convert` below supplies sufficient fuel. -/
def convertFuel (e : UnitEngine) : Nat → List Nat → Nat → ConvRes
  | 0, _, _ => ⟨0, [], .invalid⟩
  | fuel + 1, input, cap =>
    if input = [] then ⟨0, [], .ok⟩
    else
      match e.step input with
      | .unit c o =>
        if o.length ≤ cap then
          let r := convertFuel e fuel (input.drop c) (cap - o.length)
          ⟨c + r.read, o ++ r.out, r.status⟩
        else ⟨0, [], .noSpace⟩
      | .incomplete => ⟨0, [], .incomplete⟩
      | .invalid => ⟨0, [], .invalid⟩

/-- `Iconv::convert` with sufficient fuel (each unit consumes at least one
byte, so `input.length + 1` steps always finish). -/
def convert (e : UnitEngine) (input : List Nat) (cap : Nat) : ConvRes :=
  convertFuel e (input.length + 1) input cap

/-- Specification-level total conversion: the result of converting the whole
input with unbounded output space.  Used as the reference value the drivers
are proved to compute. -/
def convertAllFuel (e : UnitEngine) : Nat → List Nat → Except IconvError (List Nat)
  | 0, _ => .error (.OsError 0)
  | fuel + 1, input =>
    if input = [] then .ok []
    else
      match e.step input with
      | .unit c o => (convertAllFuel e fuel (input.drop c)).map (fun v => o ++ v)
      | .incomplete => .error .IncompleteInput
      | .invalid => .error .InvalidInput

/-- Total conversion with sufficient fuel. -/
def convertAll (e : UnitEngine) (input : List Nat) : Except IconvError (List Nat) :=
  convertAllFuel e (input.length + 1) input

/-- Largest single-unit output size in the unit decomposition of the input
(zero once the parse stops).  Bounds how much spare output space a single
convert call can demand before making progress. -/
def neededCapFuel (e : UnitEngine) : Nat → List Nat → Nat
  | 0, _ => 0
  | fuel + 1, input =>
    if input = [] then 0
    else
      match e.step input with
      | .unit c o => max o.length (neededCapFuel e fuel (input.drop c))
      | .incomplete => 0
      | .invalid => 0

/-- Largest single-unit output size, with sufficient fuel. -/
def neededCap (e : UnitEngine) (input : List Nat) : Nat :=
  neededCapFuel e (input.length + 1) input

/-- The MIN_WRITE constant (src/lib.rs 33). -/
def MIN_WRITE : Nat := 4096

/-- Modelled from the spec: dyn_buf::VecBuf's `prepare_at_least(0)` on a
buffer with total capacity `capT` of which `len` bytes hold data.  It keeps
the capacity when at least `min_write = MIN_WRITE` spare bytes are already
writable and otherwise reallocates to at least the doubled capacity (the
specification's growth policy), so the returned writable window always has at
least MIN_WRITE bytes. -/
def prepareCap (capT len : Nat) : Nat :=
  if len + MIN_WRITE ≤ capT then capT else max (2 * capT) (len + MIN_WRITE)

/-- The convert-with-growth loop of `pub fn iconv` (src/lib.rs 92-113).
`read` is the input cursor, `capT` the output VecBuf's capacity, `acc` the
committed output bytes.  Each round converts the rest of the input into the
prepared spare window; on `Ok` it commits and finishes once the whole input
has been consumed, on `NotSufficientOutput` it commits the partial output,
advances the cursor and grows the buffer, and on any other error it returns
that error alone, discarding the output.  Fuel-based; `iconv` supplies
sufficient fuel (the loop always terminates because growth is geometric). -/
def iconvLoopFuel (e : UnitEngine) (input : List Nat) :
    Nat → Nat → Nat → List Nat → Except IconvError (List Nat)
  | 0, _, _, _ => .error (.OsError 0)
  | fuel + 1, read, capT, acc =>
    let capP := prepareCap capT acc.length
    let res := convert e (input.drop read) (capP - acc.length)
    match res.status with
    | .ok =>
      if input.length ≤ read then .ok (acc ++ res.out)
      else iconvLoopFuel e input fuel (read + res.read) capP (acc ++ res.out)
    | .noSpace => iconvLoopFuel e input fuel (read + res.read) (2 * capP) (acc ++ res.out)
    | .incomplete => .error .IncompleteInput
    | .invalid => .error .InvalidInput

/-- `pub fn iconv` (src/lib.rs 92-113): one-shot conversion of `input` with a
fresh output VecBuf of capacity MIN_WRITE, parametrised by the engine the
constructed converter is bound to. -/
def iconv (e : UnitEngine) (input : List Nat) : Except IconvError (List Nat) :=
  iconvLoopFuel e input (input.length + neededCap e input + 8) 0 MIN_WRITE []

/-- The libc EINVAL errno value, as used by `Iconv::new`. -/
def EINVAL : Int := 22

/-- `Iconv::new` (src/lib.rs 148-163) given the platform's answer to
`iconv_open` for the requested encoding-name pair: either a working engine,
or the errno of the failed open, which the code maps to
`ConversionNotSupport` exactly for EINVAL and to `OsError` otherwise. -/
def iconvNew (platform : Except Int UnitEngine) : Except IconvError UnitEngine :=
  match platform with
  | .ok e => .ok e
  | .error errno =>
    .error (if errno = EINVAL then .ConversionNotSupport else .OsError errno)

/-- `pub fn iconv` including the `Iconv::new(...)?` construction step: the
conversion runs only if construction succeeded. -/
def iconvNamed (platform : Except Int UnitEngine) (input : List Nat) :
    Except IconvError (List Nat) :=
  (iconvNew platform).bind (fun e => iconv e input)

/-- `pub fn encode` (src/lib.rs 116-118): convert a UTF-8 string (its bytes)
to the target encoding; the engine behind `platform` is the one `iconv_open`
returns for ("UTF-8", encoding). -/
def encode (platform : Except Int UnitEngine) (input : List Nat) :
    Except IconvError (List Nat) :=
  iconvNamed platform input

/-- `pub fn decode` (src/lib.rs 121-123): convert bytes of a named encoding
to UTF-8.  `String::from_utf8_unchecked` does not change the bytes, so the
produced String is the output byte list itself. -/
def decode (platform : Except Int UnitEngine) (input : List Nat) :
    Except IconvError (List Nat) :=
  iconvNamed platform input

/-- The loop body of `IconvReader::read` (src/lib.rs 276-311).  `src` is the
unread part of the underlying byte source, `staged` the readable data of the
input staging VecBuf, `wrote` the bytes already written into the caller's
buffer of size `k` during this call.  Each round pulls up to MIN_WRITE source
bytes into the staging spare window, converts the staged data into the rest
of the caller's buffer, and acts on the status exactly as the match in the
source does; only the IncompleteInput case with newly pulled bytes loops.
Returns the written bytes together with the new staging data and the new
source remainder.  Fuel-based; `readOnce` supplies sufficient fuel. -/
def readLoopFuel (e : UnitEngine) (k : Nat) :
    Nat → List Nat → List Nat → List Nat →
    Except IconvError (List Nat × List Nat × List Nat)
  | 0, _, _, _ => .error (.OsError 0)
  | fuel + 1, src, staged, wrote =>
    let pulled := src.take MIN_WRITE
    let staged2 := staged ++ pulled
    let res := convert e staged2 (k - wrote.length)
    match res.status with
    | .ok => .ok (wrote ++ res.out, staged2.drop res.read, src.drop MIN_WRITE)
    | .noSpace =>
      if 0 < (wrote ++ res.out).length then
        .ok (wrote ++ res.out, staged2.drop res.read, src.drop MIN_WRITE)
      else .error .NotSufficientOutput
    | .incomplete =>
      if pulled.length = 0 then
        if 0 < (wrote ++ res.out).length then
          .ok (wrote ++ res.out, staged2.drop res.read, src.drop MIN_WRITE)
        else .error .IncompleteInput
      else readLoopFuel e k fuel (src.drop MIN_WRITE) (staged2.drop res.read) (wrote ++ res.out)
    | .invalid => .error .InvalidInput

/-- One call of `IconvReader::read` with a caller buffer of `k` bytes,
starting with nothing written.  The loop recurses only after pulling at least
one new source byte, so `src.length + 1` fuel always suffices. -/
def readOnce (e : UnitEngine) (k : Nat) (src staged : List Nat) :
    Except IconvError (List Nat × List Nat × List Nat) :=
  readLoopFuel e k (src.length + 1) src staged []

/-- The caller pattern of the streaming tests: repeatedly call
`IconvReader::read` with a `k`-byte buffer until a call returns zero bytes
(end of stream), concatenating everything read.  Fuel-based; `streamRead`
supplies sufficient fuel (every productive call consumes at least one source
or staged byte). -/
def streamLoopFuel (e : UnitEngine) (k : Nat) :
    Nat → List Nat → List Nat → List Nat → Except IconvError (List Nat)
  | 0, _, _, _ => .error (.OsError 0)
  | fuel + 1, src, staged, acc =>
    match readOnce e k src staged with
    | .error err => .error err
    | .ok (w, staged2, src2) =>
      if w = [] then .ok acc
      else streamLoopFuel e k fuel src2 staged2 (acc ++ w)

/-- Streaming decode of `input` through a fresh `IconvReader` with `k`-byte
read calls, as the chunk-size-independence property describes it. -/
def streamRead (e : UnitEngine) (k : Nat) (input : List Nat) :
    Except IconvError (List Nat) :=
  streamLoopFuel e k (input.length + 1) input [] []

/-- State of an `IconvWriter` over a sink that accepts every byte offered
(the tests use a Vec): the input staging data, the output staging data and
the bytes already pushed to the sink. -/
structure WState where
  inputB : List Nat
  outputB : List Nat
  sink : List Nat

/-- `IconvWriter::write` (src/lib.rs 331-363).  With empty input staging the
buffer is converted directly and the consumed count returned; otherwise the
buffer is first appended to the staging data and the full buffer length
returned.  `Ok` and `IncompleteInput` alike commit and flush the produced
output to the sink; any other error aborts, leaving the state as the code
leaves `self` (in the staged branch the input staging has already grown by
`buf`).  The output window is the MIN_WRITE bytes `prepare_at_least(0)`
guarantees.  Returns the `std::io::Result<usize>` and the writer state. -/
def writerWrite (e : UnitEngine) (buf : List Nat) (s : WState) :
    Except IconvError Nat × WState :=
  if s.inputB = [] then
    let res := convert e buf MIN_WRITE
    match res.status with
    | .ok | .incomplete =>
      (.ok res.read, ⟨s.inputB, [], s.sink ++ s.outputB ++ res.out⟩)
    | .noSpace => (.error .NotSufficientOutput, s)
    | .invalid => (.error .InvalidInput, s)
  else
    let ib := s.inputB ++ buf
    let res := convert e ib MIN_WRITE
    match res.status with
    | .ok | .incomplete =>
      (.ok buf.length, ⟨ib.drop res.read, [], s.sink ++ s.outputB ++ res.out⟩)
    | .noSpace => (.error .NotSufficientOutput, ⟨ib, s.outputB, s.sink⟩)
    | .invalid => (.error .InvalidInput, ⟨ib, s.outputB, s.sink⟩)

/-- `IconvWriter::flush` (src/lib.rs 365-376): one more `write` with an empty
buffer to drain the engine, then a fatal `IncompleteInput` if input staging
is still non-empty (the data is kept), otherwise all staged output goes to
the sink and the sink itself is flushed (a no-op for a Vec sink). -/
def writerFlush (e : UnitEngine) (s : WState) : Except IconvError Unit × WState :=
  match writerWrite e [] s with
  | (.error err, s1) => (.error err, s1)
  | (.ok _, s1) =>
    if s1.inputB = [] then (.ok (), ⟨s1.inputB, [], s1.sink ++ s1.outputB⟩)
    else (.error .IncompleteInput, s1)

/-- `IconvReader::new` (src/lib.rs 237-245): construct the converter first;
on success pair it with the reader and two fresh staging buffers. -/
def IconvReaderNew (platform : Except Int UnitEngine) (src : List Nat) :
    Except IconvError (UnitEngine × List Nat × List Nat × List Nat) :=
  (iconvNew platform).map (fun e => (e, src, [], []))

/-- `IconvWriter::new` (src/lib.rs 260-268): construct the converter first;
on success pair it with a fresh writer state. -/
def IconvWriterNew (platform : Except Int UnitEngine) :
    Except IconvError (UnitEngine × WState) :=
  (iconvNew platform).map (fun e => (e, ⟨[], [], []⟩))

/-- `CString::new` on the bytes of an encoding name: `none` (an error that
`unwrap` turns into a panic) exactly when the bytes contain a NUL. -/
def cstringNew (s : List Nat) : Option (List Nat) :=
  if s.contains 0 then none else some s

/-- `Iconv::new` (src/lib.rs 148-163) including the
`CString::new(...).unwrap()` calls on both encoding names: `none` models the
panic of `unwrap` when a name holds an interior NUL byte; otherwise the
construction proceeds against the platform. -/
def IconvNewChecked (platform : Except Int UnitEngine) (fromE toE : List Nat) :
    Option (Except IconvError UnitEngine) :=
  match cstringNew fromE, cstringNew toE with
  | some _, some _ => some (iconvNew platform)
  | _, _ => none

/-- `pub fn iconv` reached with explicit encoding-name byte lists, so that
the `CString::new(...).unwrap()` panic propagates: `none` models the panic. -/
def iconvChecked (platform : Except Int UnitEngine) (fromE toE input : List Nat) :
    Option (Except IconvError (List Nat)) :=
  match IconvNewChecked platform fromE toE with
  | none => none
  | some r => some (r.bind (fun e => iconv e input))

mutual

/-- Well-formed UTF-8 (the invariant of a Rust String), written from the
specification's guarantee for decode: the scalar-value encoding of RFC 3629,
excluding overlong forms, surrogates and values above U+10FFFF.  A leading
byte fixes the range of the first continuation byte and the number of
further plain continuation bytes, checked by `utf8Tail`. -/
def utf8Valid : List Nat → Bool
  | [] => true
  | b :: l =>
    if b ≤ 127 then utf8Valid l
    else if 194 ≤ b ∧ b ≤ 223 then utf8Tail l 128 191 0
    else if b = 224 then utf8Tail l 160 191 1
    else if (225 ≤ b ∧ b ≤ 236) ∨ b = 238 ∨ b = 239 then utf8Tail l 128 191 1
    else if b = 237 then utf8Tail l 128 159 1
    else if b = 240 then utf8Tail l 144 191 2
    else if 241 ≤ b ∧ b ≤ 243 then utf8Tail l 128 191 2
    else if b = 244 then utf8Tail l 128 143 2
    else false
termination_by l => l.length

/-- Continuation-byte checker: the head must lie in [lo, hi], then `more`
further continuation bytes in [128, 191] follow, then a fresh scalar. -/
def utf8Tail : List Nat → Nat → Nat → Nat → Bool
  | [], _, _, _ => false
  | c :: l, lo, hi, more =>
    decide (lo ≤ c) && decide (c ≤ hi) &&
      (match more with
       | 0 => utf8Valid l
       | m + 1 => utf8Tail l 128 191 m)
termination_by l _ _ _ => l.length

end

/-- Step function of a toy single-byte engine used as a concrete witness:
bytes below 128 pass through unchanged, everything else is illegal. -/
def asciiStep : List Nat → StepRes
  | [] => .incomplete
  | b :: _ => if b < 128 then .unit 1 [b] else .invalid

/-- The toy single-byte engine. -/
def toyAscii : UnitEngine where
  step := asciiStep
  consume_pos := by
    intro l c o h
    cases l with
    | nil => simp [asciiStep] at h
    | cons b t =>
      simp only [asciiStep] at h
      split at h
      · cases h; exact Nat.one_pos
      · cases h
  consume_le := by
    intro l c o h
    cases l with
    | nil => simp [asciiStep] at h
    | cons b t =>
      simp only [asciiStep] at h
      split at h
      · cases h; simp
      · cases h
  out_ne := by
    intro l c o h
    cases l with
    | nil => simp [asciiStep] at h
    | cons b t =>
      simp only [asciiStep] at h
      split at h
      · cases h; simp
      · cases h
  step_mono := by
    intro l ext c o h
    cases l with
    | nil => simp [asciiStep] at h
    | cons b t =>
      simp only [asciiStep] at h
      split at h
      · cases h; simp only [List.cons_append, asciiStep]; rw [if_pos]; assumption
      · cases h
  invalid_mono := by
    intro l ext h
    cases l with
    | nil => simp [asciiStep] at h
    | cons b t =>
      simp only [asciiStep] at h
      split at h
      · cases h
      · simp only [List.cons_append, asciiStep]; rw [if_neg]; assumption

/-- Step function of a toy engine with a two-byte unit: bytes below 128 pass
through; the byte 200 starts a two-byte unit whose output is the two bytes
150 and the following byte; a lone 200 is an incomplete unit; any other byte
is illegal. -/
def wideStep : List Nat → StepRes
  | [] => .incomplete
  | b :: t =>
    if b < 128 then .unit 1 [b]
    else if b = 200 then
      match t with
      | [] => .incomplete
      | c :: _ => .unit 2 [150, c]
    else .invalid

/-- The toy engine with a two-byte unit whose output has two bytes. -/
def toyWide : UnitEngine where
  step := wideStep
  consume_pos := by
    intro l c o h
    cases l with
    | nil => simp [wideStep] at h
    | cons b t =>
      simp only [wideStep] at h
      split at h
      · cases h; exact Nat.one_pos
      · split at h
        · cases t with
          | nil => cases h
          | cons c2 t2 => cases h; exact Nat.zero_lt_two
        · cases h
  consume_le := by
    intro l c o h
    cases l with
    | nil => simp [wideStep] at h
    | cons b t =>
      simp only [wideStep] at h
      split at h
      · cases h; simp
      · split at h
        · cases t with
          | nil => cases h
          | cons c2 t2 => cases h; simp
        · cases h
  out_ne := by
    intro l c o h
    cases l with
    | nil => simp [wideStep] at h
    | cons b t =>
      simp only [wideStep] at h
      split at h
      · cases h; simp
      · split at h
        · cases t with
          | nil => cases h
          | cons c2 t2 => cases h; simp
        · cases h
  step_mono := by
    intro l ext c o h
    cases l with
    | nil => simp [wideStep] at h
    | cons b t =>
      simp only [wideStep] at h
      split at h
      · cases h; simp only [List.cons_append, wideStep]; rw [if_pos]; assumption
      · split at h
        · cases t with
          | nil => cases h
          | cons c2 t2 =>
            cases h
            simp only [List.cons_append, wideStep]
            rw [if_neg (by assumption), if_pos (by assumption)]
        · cases h
  invalid_mono := by
    intro l ext h
    cases l with
    | nil => simp [wideStep] at h
    | cons b t =>
      simp only [wideStep] at h
      split at h
      · cases h
      · split at h
        · cases t with
          | nil => cases h
          | cons c2 t2 => cases h
        · simp only [List.cons_append, wideStep]
          rw [if_neg (by assumption), if_neg (by assumption)]

/-! Fuel congruence: every fuelled function computes the same value for any
fuel strictly above the input length, because a unit consumes at least one
byte. -/

theorem length_drop_lt {l : List Nat} {c : Nat} (hl : l ≠ []) (hc : 0 < c) :
    (l.drop c).length < l.length := by
  rw [List.length_drop]
  have := List.length_pos.mpr hl
  omega

theorem convertFuel_congr (e : UnitEngine) :
    ∀ f g l cap, l.length < f → l.length < g →
      convertFuel e f l cap = convertFuel e g l cap := by
  intro f
  induction f with
  | zero => intro g l cap hf; exact absurd hf (Nat.not_lt_zero _)
  | succ f ih =>
    intro g l cap hf hg
    cases g with
    | zero => exact absurd hg (Nat.not_lt_zero _)
    | succ g =>
      simp only [convertFuel]
      by_cases hl : l = []
      · simp [hl]
      · simp only [if_neg hl]
        cases hs : e.step l with
        | unit c o =>
          by_cases ho : o.length ≤ cap
          · have hc := e.consume_pos l c o hs
            have hd := length_drop_lt hl hc
            simp only [if_pos ho]
            rw [ih g (l.drop c) (cap - o.length) (by omega) (by omega)]
          · simp [if_neg ho]
        | incomplete => rfl
        | invalid => rfl

theorem convertFuel_eq (e : UnitEngine) {f : Nat} {l : List Nat} (cap : Nat)
    (h : l.length < f) : convertFuel e f l cap = convert e l cap :=
  convertFuel_congr e f (l.length + 1) l cap h (Nat.lt_succ_self _)

theorem convertAllFuel_congr (e : UnitEngine) :
    ∀ f g l, l.length < f → l.length < g →
      convertAllFuel e f l = convertAllFuel e g l := by
  intro f
  induction f with
  | zero => intro g l hf; exact absurd hf (Nat.not_lt_zero _)
  | succ f ih =>
    intro g l hf hg
    cases g with
    | zero => exact absurd hg (Nat.not_lt_zero _)
    | succ g =>
      simp only [convertAllFuel]
      by_cases hl : l = []
      · simp [hl]
      · simp only [if_neg hl]
        cases hs : e.step l with
        | unit c o =>
          have hc := e.consume_pos l c o hs
          have hd := length_drop_lt hl hc
          simp only [ih g (l.drop c) (by omega) (by omega)]
        | incomplete => rfl
        | invalid => rfl

theorem convertAllFuel_eq (e : UnitEngine) {f : Nat} {l : List Nat}
    (h : l.length < f) : convertAllFuel e f l = convertAll e l :=
  convertAllFuel_congr e f (l.length + 1) l h (Nat.lt_succ_self _)

theorem neededCapFuel_congr (e : UnitEngine) :
    ∀ f g l, l.length < f → l.length < g →
      neededCapFuel e f l = neededCapFuel e g l := by
  intro f
  induction f with
  | zero => intro g l hf; exact absurd hf (Nat.not_lt_zero _)
  | succ f ih =>
    intro g l hf hg
    cases g with
    | zero => exact absurd hg (Nat.not_lt_zero _)
    | succ g =>
      simp only [neededCapFuel]
      by_cases hl : l = []
      · simp [hl]
      · simp only [if_neg hl]
        cases hs : e.step l with
        | unit c o =>
          have hc := e.consume_pos l c o hs
          have hd := length_drop_lt hl hc
          simp only [ih g (l.drop c) (by omega) (by omega)]
        | incomplete => rfl
        | invalid => rfl

theorem neededCapFuel_eq (e : UnitEngine) {f : Nat} {l : List Nat}
    (h : l.length < f) : neededCapFuel e f l = neededCap e l :=
  neededCapFuel_congr e f (l.length + 1) l h (Nat.lt_succ_self _)

/-! Single-step unfolding equations phrased through the engine's step. -/

theorem step_nil_not_unit (e : UnitEngine) {c : Nat} {o : List Nat} :
    e.step [] ≠ .unit c o := by
  intro h
  have h1 := e.consume_pos [] c o h
  have h2 := e.consume_le [] c o h
  simp at h2
  omega

theorem ne_nil_of_step_unit (e : UnitEngine) {l : List Nat} {c : Nat} {o : List Nat}
    (h : e.step l = .unit c o) : l ≠ [] := by
  intro hl
  subst hl
  exact step_nil_not_unit e h

theorem convert_nil (e : UnitEngine) (cap : Nat) : convert e [] cap = ⟨0, [], .ok⟩ := rfl

theorem convert_unit (e : UnitEngine) {l : List Nat} {c : Nat} {o : List Nat} (cap : Nat)
    (hs : e.step l = .unit c o) :
    convert e l cap =
      if o.length ≤ cap then
        ⟨c + (convert e (l.drop c) (cap - o.length)).read,
          o ++ (convert e (l.drop c) (cap - o.length)).out,
          (convert e (l.drop c) (cap - o.length)).status⟩
      else ⟨0, [], .noSpace⟩ := by
  have hl := ne_nil_of_step_unit e hs
  have hc := e.consume_pos l c o hs
  have hd := length_drop_lt hl hc
  show convertFuel e (l.length + 1) l cap = _
  simp only [convertFuel, if_neg hl, hs]
  by_cases ho : o.length ≤ cap
  · simp only [if_pos ho]
    rw [convertFuel_congr e l.length ((l.drop c).length + 1) _ _ (by omega)
      (Nat.lt_succ_self _)]
    rfl
  · simp [if_neg ho]

theorem convert_incomplete_step (e : UnitEngine) {l : List Nat} (cap : Nat)
    (hl : l ≠ []) (hs : e.step l = .incomplete) :
    convert e l cap = ⟨0, [], .incomplete⟩ := by
  show convertFuel e (l.length + 1) l cap = _
  simp [convertFuel, if_neg hl, hs]

theorem convert_invalid_step (e : UnitEngine) {l : List Nat} (cap : Nat)
    (hl : l ≠ []) (hs : e.step l = .invalid) :
    convert e l cap = ⟨0, [], .invalid⟩ := by
  show convertFuel e (l.length + 1) l cap = _
  simp [convertFuel, if_neg hl, hs]

theorem convertAll_nil (e : UnitEngine) : convertAll e [] = .ok [] := rfl

theorem convertAll_unit (e : UnitEngine) {l : List Nat} {c : Nat} {o : List Nat}
    (hs : e.step l = .unit c o) :
    convertAll e l = (convertAll e (l.drop c)).map (fun v => o ++ v) := by
  have hl := ne_nil_of_step_unit e hs
  have hc := e.consume_pos l c o hs
  have hd := length_drop_lt hl hc
  show convertAllFuel e (l.length + 1) l = _
  simp only [convertAllFuel, if_neg hl, hs]
  rw [convertAllFuel_eq e (by omega)]

theorem convertAll_incomplete_step (e : UnitEngine) {l : List Nat}
    (hl : l ≠ []) (hs : e.step l = .incomplete) :
    convertAll e l = .error .IncompleteInput := by
  show convertAllFuel e (l.length + 1) l = _
  simp [convertAllFuel, if_neg hl, hs]

theorem convertAll_invalid_step (e : UnitEngine) {l : List Nat}
    (hl : l ≠ []) (hs : e.step l = .invalid) :
    convertAll e l = .error .InvalidInput := by
  show convertAllFuel e (l.length + 1) l = _
  simp [convertAllFuel, if_neg hl, hs]

theorem neededCap_nil (e : UnitEngine) : neededCap e [] = 0 := rfl

theorem neededCap_unit (e : UnitEngine) {l : List Nat} {c : Nat} {o : List Nat}
    (hs : e.step l = .unit c o) :
    neededCap e l = max o.length (neededCap e (l.drop c)) := by
  have hl := ne_nil_of_step_unit e hs
  have hc := e.consume_pos l c o hs
  have hd := length_drop_lt hl hc
  show neededCapFuel e (l.length + 1) l = _
  simp only [neededCapFuel, if_neg hl, hs]
  rw [neededCapFuel_eq e (by omega)]

theorem neededCap_incomplete_step (e : UnitEngine) {l : List Nat}
    (hl : l ≠ []) (hs : e.step l = .incomplete) : neededCap e l = 0 := by
  show neededCapFuel e (l.length + 1) l = _
  simp [neededCapFuel, if_neg hl, hs]

theorem neededCap_invalid_step (e : UnitEngine) {l : List Nat}
    (hl : l ≠ []) (hs : e.step l = .invalid) : neededCap e l = 0 := by
  show neededCapFuel e (l.length + 1) l = _
  simp [neededCapFuel, if_neg hl, hs]


/-! Behaviour of one convert call: bounds and stop-point characterisations.
The aux versions carry an explicit bound for the strong induction on the
input length. -/

theorem emap_nil (x : Except IconvError (List Nat)) :
    x.map (fun v => ([] : List Nat) ++ v) = x := by
  cases x <;> rfl

theorem emap_id (x : Except IconvError (List Nat)) :
    x.map (fun v => v) = x := by
  cases x <;> rfl

theorem emap_append (o1 o2 : List Nat) (x : Except IconvError (List Nat)) :
    (x.map (fun v => o2 ++ v)).map (fun v => o1 ++ v) =
      x.map (fun v => (o1 ++ o2) ++ v) := by
  cases x <;> simp [Except.map, List.append_assoc]

theorem convert_read_le_aux (e : UnitEngine) :
    ∀ (n : Nat) (l : List Nat) (cap : Nat), l.length ≤ n →
      (convert e l cap).read ≤ l.length := by
  intro n
  induction n with
  | zero =>
    intro l cap hn
    have hl : l = [] := List.eq_nil_of_length_eq_zero (Nat.le_zero.mp hn)
    subst hl
    simp [convert_nil]
  | succ n ih =>
    intro l cap hn
    by_cases hl : l = []
    · subst hl; simp [convert_nil]
    · cases hs : e.step l with
      | unit c o =>
        have hc := e.consume_pos l c o hs
        have hcle := e.consume_le l c o hs
        have hlen : 0 < l.length := List.length_pos.mpr hl
        rw [convert_unit e cap hs]
        by_cases ho : o.length ≤ cap
        · simp only [if_pos ho]
          have hr := ih (l.drop c) (cap - o.length) (by rw [List.length_drop]; omega)
          rw [List.length_drop] at hr
          omega
        · simp [if_neg ho]
      | incomplete => rw [convert_incomplete_step e cap hl hs]; simp
      | invalid => rw [convert_invalid_step e cap hl hs]; simp

theorem convert_read_le (e : UnitEngine) (l : List Nat) (cap : Nat) :
    (convert e l cap).read ≤ l.length :=
  convert_read_le_aux e l.length l cap le_rfl

theorem convert_read_zero_iff_aux (e : UnitEngine) :
    ∀ (n : Nat) (l : List Nat) (cap : Nat), l.length ≤ n →
      ((convert e l cap).read = 0 ↔ (convert e l cap).out = []) := by
  intro n
  induction n with
  | zero =>
    intro l cap hn
    have hl : l = [] := List.eq_nil_of_length_eq_zero (Nat.le_zero.mp hn)
    subst hl
    simp [convert_nil]
  | succ n ih =>
    intro l cap hn
    by_cases hl : l = []
    · subst hl; simp [convert_nil]
    · cases hs : e.step l with
      | unit c o =>
        have hc := e.consume_pos l c o hs
        have hone := e.out_ne l c o hs
        rw [convert_unit e cap hs]
        by_cases ho : o.length ≤ cap
        · simp only [if_pos ho]
          constructor
          · intro h; omega
          · intro h
            exact absurd (List.append_eq_nil.mp h).1 hone
        · simp [if_neg ho]
      | incomplete => rw [convert_incomplete_step e cap hl hs]; simp
      | invalid => rw [convert_invalid_step e cap hl hs]; simp

theorem convert_read_zero_iff (e : UnitEngine) (l : List Nat) (cap : Nat) :
    (convert e l cap).read = 0 ↔ (convert e l cap).out = [] :=
  convert_read_zero_iff_aux e l.length l cap le_rfl

theorem convert_out_le_aux (e : UnitEngine) :
    ∀ (n : Nat) (l : List Nat) (cap : Nat), l.length ≤ n →
      (convert e l cap).out.length ≤ cap := by
  intro n
  induction n with
  | zero =>
    intro l cap hn
    have hl : l = [] := List.eq_nil_of_length_eq_zero (Nat.le_zero.mp hn)
    subst hl
    simp [convert_nil]
  | succ n ih =>
    intro l cap hn
    by_cases hl : l = []
    · subst hl; simp [convert_nil]
    · cases hs : e.step l with
      | unit c o =>
        have hc := e.consume_pos l c o hs
        have hlen : 0 < l.length := List.length_pos.mpr hl
        rw [convert_unit e cap hs]
        by_cases ho : o.length ≤ cap
        · simp only [if_pos ho, List.length_append]
          have hr := ih (l.drop c) (cap - o.length) (by rw [List.length_drop]; omega)
          omega
        · simp [if_neg ho]
      | incomplete => rw [convert_incomplete_step e cap hl hs]; simp
      | invalid => rw [convert_invalid_step e cap hl hs]; simp

theorem convert_out_le (e : UnitEngine) (l : List Nat) (cap : Nat) :
    (convert e l cap).out.length ≤ cap :=
  convert_out_le_aux e l.length l cap le_rfl

theorem convert_ok_read_aux (e : UnitEngine) :
    ∀ (n : Nat) (l : List Nat) (cap : Nat), l.length ≤ n →
      (convert e l cap).status = .ok → (convert e l cap).read = l.length := by
  intro n
  induction n with
  | zero =>
    intro l cap hn _
    have hl : l = [] := List.eq_nil_of_length_eq_zero (Nat.le_zero.mp hn)
    subst hl
    simp [convert_nil]
  | succ n ih =>
    intro l cap hn hst
    by_cases hl : l = []
    · subst hl; simp [convert_nil]
    · cases hs : e.step l with
      | unit c o =>
        have hc := e.consume_pos l c o hs
        have hcle := e.consume_le l c o hs
        have hlen : 0 < l.length := List.length_pos.mpr hl
        rw [convert_unit e cap hs] at hst ⊢
        by_cases ho : o.length ≤ cap
        · simp only [if_pos ho] at hst ⊢
          have hr := ih (l.drop c) (cap - o.length) (by rw [List.length_drop]; omega) hst
          rw [List.length_drop] at hr
          omega
        · simp [if_neg ho] at hst
      | incomplete =>
        rw [convert_incomplete_step e cap hl hs] at hst
        simp at hst
      | invalid =>
        rw [convert_invalid_step e cap hl hs] at hst
        simp at hst

theorem convert_ok_read (e : UnitEngine) (l : List Nat) (cap : Nat)
    (h : (convert e l cap).status = .ok) : (convert e l cap).read = l.length :=
  convert_ok_read_aux e l.length l cap le_rfl h

theorem convert_incomplete_stop_aux (e : UnitEngine) :
    ∀ (n : Nat) (l : List Nat) (cap : Nat), l.length ≤ n →
      (convert e l cap).status = .incomplete →
      e.step (l.drop (convert e l cap).read) = .incomplete ∧
        l.drop (convert e l cap).read ≠ [] := by
  intro n
  induction n with
  | zero =>
    intro l cap hn hst
    have hl : l = [] := List.eq_nil_of_length_eq_zero (Nat.le_zero.mp hn)
    subst hl
    simp [convert_nil] at hst
  | succ n ih =>
    intro l cap hn hst
    by_cases hl : l = []
    · subst hl; simp [convert_nil] at hst
    · cases hs : e.step l with
      | unit c o =>
        have hc := e.consume_pos l c o hs
        have hlen : 0 < l.length := List.length_pos.mpr hl
        rw [convert_unit e cap hs] at hst ⊢
        by_cases ho : o.length ≤ cap
        · simp only [if_pos ho] at hst ⊢
          have hr := ih (l.drop c) (cap - o.length) (by rw [List.length_drop]; omega) hst
          rw [List.drop_drop] at hr
          exact hr
        · simp [if_neg ho] at hst
      | incomplete =>
        rw [convert_incomplete_step e cap hl hs] at hst ⊢
        simpa [hs] using hl
      | invalid =>
        rw [convert_invalid_step e cap hl hs] at hst
        simp at hst

theorem convert_incomplete_stop (e : UnitEngine) (l : List Nat) (cap : Nat)
    (h : (convert e l cap).status = .incomplete) :
    e.step (l.drop (convert e l cap).read) = .incomplete ∧
      l.drop (convert e l cap).read ≠ [] :=
  convert_incomplete_stop_aux e l.length l cap le_rfl h

theorem convert_invalid_stop_aux (e : UnitEngine) :
    ∀ (n : Nat) (l : List Nat) (cap : Nat), l.length ≤ n →
      (convert e l cap).status = .invalid →
      e.step (l.drop (convert e l cap).read) = .invalid ∧
        l.drop (convert e l cap).read ≠ [] := by
  intro n
  induction n with
  | zero =>
    intro l cap hn hst
    have hl : l = [] := List.eq_nil_of_length_eq_zero (Nat.le_zero.mp hn)
    subst hl
    simp [convert_nil] at hst
  | succ n ih =>
    intro l cap hn hst
    by_cases hl : l = []
    · subst hl; simp [convert_nil] at hst
    · cases hs : e.step l with
      | unit c o =>
        have hc := e.consume_pos l c o hs
        have hlen : 0 < l.length := List.length_pos.mpr hl
        rw [convert_unit e cap hs] at hst ⊢
        by_cases ho : o.length ≤ cap
        · simp only [if_pos ho] at hst ⊢
          have hr := ih (l.drop c) (cap - o.length) (by rw [List.length_drop]; omega) hst
          rw [List.drop_drop] at hr
          exact hr
        · simp [if_neg ho] at hst
      | incomplete =>
        rw [convert_incomplete_step e cap hl hs] at hst
        simp at hst
      | invalid =>
        rw [convert_invalid_step e cap hl hs] at hst ⊢
        simpa [hs] using hl

theorem convert_invalid_stop (e : UnitEngine) (l : List Nat) (cap : Nat)
    (h : (convert e l cap).status = .invalid) :
    e.step (l.drop (convert e l cap).read) = .invalid ∧
      l.drop (convert e l cap).read ≠ [] :=
  convert_invalid_stop_aux e l.length l cap le_rfl h

theorem convert_noSpace_stop_aux (e : UnitEngine) :
    ∀ (n : Nat) (l : List Nat) (cap : Nat), l.length ≤ n →
      (convert e l cap).status = .noSpace →
      ∃ c o, e.step (l.drop (convert e l cap).read) = .unit c o ∧
        cap - (convert e l cap).out.length < o.length := by
  intro n
  induction n with
  | zero =>
    intro l cap hn hst
    have hl : l = [] := List.eq_nil_of_length_eq_zero (Nat.le_zero.mp hn)
    subst hl
    simp [convert_nil] at hst
  | succ n ih =>
    intro l cap hn hst
    by_cases hl : l = []
    · subst hl; simp [convert_nil] at hst
    · cases hs : e.step l with
      | unit c o =>
        have hc := e.consume_pos l c o hs
        have hlen : 0 < l.length := List.length_pos.mpr hl
        rw [convert_unit e cap hs] at hst ⊢
        by_cases ho : o.length ≤ cap
        · simp only [if_pos ho] at hst ⊢
          obtain ⟨c2, o2, h1, h2⟩ :=
            ih (l.drop c) (cap - o.length) (by rw [List.length_drop]; omega) hst
          refine ⟨c2, o2, ?_, ?_⟩
          · rw [List.drop_drop] at h1
            exact h1
          · simp only [List.length_append]
            omega
        · simp only [if_neg ho]
          exact ⟨c, o, by simpa using hs, by simpa using ho⟩
      | incomplete =>
        rw [convert_incomplete_step e cap hl hs] at hst
        simp at hst
      | invalid =>
        rw [convert_invalid_step e cap hl hs] at hst
        simp at hst

theorem convert_noSpace_stop (e : UnitEngine) (l : List Nat) (cap : Nat)
    (h : (convert e l cap).status = .noSpace) :
    ∃ c o, e.step (l.drop (convert e l cap).read) = .unit c o ∧
      cap - (convert e l cap).out.length < o.length :=
  convert_noSpace_stop_aux e l.length l cap le_rfl h

/-! Decomposition: a convert call consumes a unit-aligned prefix, so the total
conversion of any extension factors through what the call produced.  This is
the backbone of both driver proofs. -/

theorem convertAll_decomp_aux (e : UnitEngine) :
    ∀ (n : Nat) (a : List Nat), a.length ≤ n → ∀ (b : List Nat) (cap : Nat),
      convertAll e (a ++ b) =
        (convertAll e (a.drop (convert e a cap).read ++ b)).map
          (fun v => (convert e a cap).out ++ v) := by
  intro n
  induction n with
  | zero =>
    intro a hn b cap
    have ha : a = [] := List.eq_nil_of_length_eq_zero (Nat.le_zero.mp hn)
    subst ha
    simp [convert_nil, emap_id]
  | succ n ih =>
    intro a hn b cap
    by_cases ha : a = []
    · subst ha; simp [convert_nil, emap_id]
    · cases hs : e.step a with
      | unit c o =>
        have hc := e.consume_pos a c o hs
        have hcle := e.consume_le a c o hs
        have hlen : 0 < a.length := List.length_pos.mpr ha
        have hmono := e.step_mono a b c o hs
        rw [convert_unit e cap hs]
        by_cases ho : o.length ≤ cap
        · simp only [if_pos ho]
          rw [convertAll_unit e hmono]
          have hdropab : (a ++ b).drop c = a.drop c ++ b :=
            List.drop_append_of_le_length hcle
          rw [hdropab]
          rw [ih (a.drop c) (by rw [List.length_drop]; omega) b (cap - o.length)]
          rw [emap_append]
          rw [List.drop_drop]
        · simp [if_neg ho, emap_id]
      | incomplete =>
        rw [convert_incomplete_step e cap ha hs]
        simp [emap_id]
      | invalid =>
        rw [convert_invalid_step e cap ha hs]
        simp [emap_id]

theorem convertAll_decomp (e : UnitEngine) (a b : List Nat) (cap : Nat) :
    convertAll e (a ++ b) =
      (convertAll e (a.drop (convert e a cap).read ++ b)).map
        (fun v => (convert e a cap).out ++ v) :=
  convertAll_decomp_aux e a.length a le_rfl b cap

theorem convertAll_decomp_nil (e : UnitEngine) (l : List Nat) (cap : Nat) :
    convertAll e l =
      (convertAll e (l.drop (convert e l cap).read)).map
        (fun v => (convert e l cap).out ++ v) := by
  have h := convertAll_decomp e l [] cap
  simpa using h

theorem convert_ok_convertAll (e : UnitEngine) (l : List Nat) (cap : Nat)
    (h : (convert e l cap).status = .ok) :
    convertAll e l = .ok (convert e l cap).out := by
  have hd := convertAll_decomp_nil e l cap
  rw [convert_ok_read e l cap h] at hd
  simpa [List.drop_length, convertAll_nil, Except.map] using hd

theorem convert_incomplete_convertAll (e : UnitEngine) (l : List Nat) (cap : Nat)
    (h : (convert e l cap).status = .incomplete) :
    convertAll e l = .error .IncompleteInput := by
  obtain ⟨hstep, hne⟩ := convert_incomplete_stop e l cap h
  have hd := convertAll_decomp_nil e l cap
  rw [convertAll_incomplete_step e hne hstep] at hd
  simpa [Except.map] using hd

theorem convert_invalid_convertAll (e : UnitEngine) (l : List Nat) (cap : Nat)
    (h : (convert e l cap).status = .invalid) :
    convertAll e l = .error .InvalidInput := by
  obtain ⟨hstep, hne⟩ := convert_invalid_stop e l cap h
  have hd := convertAll_decomp_nil e l cap
  rw [convertAll_invalid_step e hne hstep] at hd
  simpa [Except.map] using hd

theorem neededCap_first (e : UnitEngine) {l : List Nat} {c : Nat} {o : List Nat}
    (hs : e.step l = .unit c o) : o.length ≤ neededCap e l := by
  rw [neededCap_unit e hs]
  exact le_max_left _ _

theorem neededCap_drop_le_aux (e : UnitEngine) :
    ∀ (n : Nat) (a : List Nat), a.length ≤ n → ∀ (b : List Nat) (cap : Nat),
      neededCap e (a.drop (convert e a cap).read ++ b) ≤ neededCap e (a ++ b) := by
  intro n
  induction n with
  | zero =>
    intro a hn b cap
    have ha : a = [] := List.eq_nil_of_length_eq_zero (Nat.le_zero.mp hn)
    subst ha
    simp [convert_nil]
  | succ n ih =>
    intro a hn b cap
    by_cases ha : a = []
    · subst ha; simp [convert_nil]
    · cases hs : e.step a with
      | unit c o =>
        have hc := e.consume_pos a c o hs
        have hcle := e.consume_le a c o hs
        have hlen : 0 < a.length := List.length_pos.mpr ha
        have hmono := e.step_mono a b c o hs
        rw [convert_unit e cap hs]
        by_cases ho : o.length ≤ cap
        · simp only [if_pos ho]
          rw [neededCap_unit e hmono]
          have hdropab : (a ++ b).drop c = a.drop c ++ b :=
            List.drop_append_of_le_length hcle
          rw [hdropab]
          have hih := ih (a.drop c) (by rw [List.length_drop]; omega) b (cap - o.length)
          rw [List.drop_drop] at hih
          exact le_trans hih (le_max_right _ _)
        · simp [if_neg ho]
      | incomplete =>
        rw [convert_incomplete_step e cap ha hs]
        simp
      | invalid =>
        rw [convert_invalid_step e cap ha hs]
        simp

theorem neededCap_drop_le (e : UnitEngine) (a b : List Nat) (cap : Nat) :
    neededCap e (a.drop (convert e a cap).read ++ b) ≤ neededCap e (a ++ b) :=
  neededCap_drop_le_aux e a.length a le_rfl b cap

theorem neededCap_drop_le_nil (e : UnitEngine) (l : List Nat) (cap : Nat) :
    neededCap e (l.drop (convert e l cap).read) ≤ neededCap e l := by
  have h := neededCap_drop_le e l [] cap
  simpa using h

/-! Correctness of the convert-with-growth loop: `iconv` computes the total
conversion.  The fuel argument is settled by a lexicographic argument: every
round either consumes input or at least doubles the spare output window while
the window is still below the largest unit output. -/

theorem prepareCap_ge_len (capT len : Nat) : len + MIN_WRITE ≤ prepareCap capT len := by
  unfold prepareCap
  split
  · omega
  · exact le_max_right _ _

theorem prepareCap_ge_cap (capT len : Nat) : capT ≤ prepareCap capT len := by
  unfold prepareCap
  split
  · exact le_rfl
  · exact le_trans (by omega) (le_max_left (2 * capT) (len + MIN_WRITE))

theorem iconvLoop_done (e : UnitEngine) (input : List Nat) (fuel read capT : Nat)
    (acc : List Nat) (hread : input.length ≤ read) :
    iconvLoopFuel e input (fuel + 1) read capT acc = .ok acc := by
  have hrem : input.drop read = [] := List.drop_eq_nil_of_le hread
  simp only [iconvLoopFuel, hrem, convert_nil, if_pos hread, List.append_nil]

theorem iconvLoop_eq_aux (e : UnitEngine) (input : List Nat) :
    ∀ (fuel read capT : Nat) (acc : List Nat),
      acc.length ≤ capT →
      (input.drop read).length +
          (neededCap e (input.drop read) + 1 - (capT - acc.length)) + 2 ≤ fuel →
      iconvLoopFuel e input fuel read capT acc =
        (convertAll e (input.drop read)).map (fun v => acc ++ v) := by
  intro fuel
  induction fuel with
  | zero =>
    intro read capT acc hcap hfuel
    omega
  | succ fuel ih =>
    intro read capT acc hcap hfuel
    have hmw : MIN_WRITE = 4096 := rfl
    have hplen := prepareCap_ge_len capT acc.length
    have hpcap := prepareCap_ge_cap capT acc.length
    have houtle := convert_out_le e (input.drop read)
      (prepareCap capT acc.length - acc.length)
    have hreadle := convert_read_le e (input.drop read)
      (prepareCap capT acc.length - acc.length)
    simp only [iconvLoopFuel]
    cases hst : (convert e (input.drop read) (prepareCap capT acc.length - acc.length)).status with
    | ok =>
      by_cases hr : input.length ≤ read
      · rw [if_pos hr]
        have hrem : input.drop read = [] := List.drop_eq_nil_of_le hr
        rw [hrem]
        simp [convert_nil, convertAll_nil, Except.map]
      · rw [if_neg hr]
        have hokread := convert_ok_read e (input.drop read)
          (prepareCap capT acc.length - acc.length) hst
        have hread2 : input.length ≤
            read + (convert e (input.drop read) (prepareCap capT acc.length - acc.length)).read := by
          rw [hokread, List.length_drop]
          omega
        have hremne : input.drop read ≠ [] := by
          have : 0 < (input.drop read).length := by rw [List.length_drop]; omega
          exact List.length_pos.mp this
        have hlenrem : 0 < (input.drop read).length := List.length_pos.mpr hremne
        cases fuel with
        | zero => omega
        | succ fuel2 =>
          rw [iconvLoop_done e input fuel2 _ _ _ hread2]
          rw [convert_ok_convertAll e (input.drop read)
            (prepareCap capT acc.length - acc.length) hst]
          rfl
    | noSpace =>
      have hd := convertAll_decomp_nil e (input.drop read)
        (prepareCap capT acc.length - acc.length)
      have hdz := List.drop_drop
        ((convert e (input.drop read) (prepareCap capT acc.length - acc.length)).read)
        read input
      have hcap2 : (acc ++ (convert e (input.drop read)
          (prepareCap capT acc.length - acc.length)).out).length ≤
          2 * prepareCap capT acc.length := by
        rw [List.length_append]
        omega
      have hneed := neededCap_drop_le_nil e (input.drop read)
        (prepareCap capT acc.length - acc.length)
      have hfuel2 : (input.drop
            (read + (convert e (input.drop read)
              (prepareCap capT acc.length - acc.length)).read)).length +
          (neededCap e (input.drop
            (read + (convert e (input.drop read)
              (prepareCap capT acc.length - acc.length)).read)) + 1 -
            (2 * prepareCap capT acc.length -
              (acc ++ (convert e (input.drop read)
                (prepareCap capT acc.length - acc.length)).out).length)) + 2 ≤ fuel := by
        rw [← hdz, List.length_append]
        by_cases hr0 : (convert e (input.drop read)
            (prepareCap capT acc.length - acc.length)).read = 0
        · have hout0 : (convert e (input.drop read)
              (prepareCap capT acc.length - acc.length)).out = [] :=
            (convert_read_zero_iff e _ _).mp hr0
          obtain ⟨c2, o2, hstep2, hlt2⟩ := convert_noSpace_stop e (input.drop read)
            (prepareCap capT acc.length - acc.length) hst
          rw [hr0] at hstep2
          rw [List.drop_zero] at hstep2
          have hfirst := neededCap_first e hstep2
          rw [hr0, List.drop_zero, hout0]
          rw [hout0] at hlt2
          simp only [List.length_nil, Nat.add_zero, Nat.sub_zero] at hlt2 ⊢
          generalize hgP : prepareCap capT acc.length = P at hlt2 hplen hpcap ⊢
          generalize hgN : neededCap e (input.drop read) = N at hfirst hfuel ⊢
          omega
        · have hlenrem : (input.drop read).length ≥ 1 := by
            by_contra hc
            have : input.drop read = [] := by
              cases hx : input.drop read with
              | nil => rfl
              | cons y ys => rw [hx] at hc; simp at hc
            rw [this] at hst
            rw [convert_nil] at hst
            cases hst
          have hlen3 : ((input.drop read).drop
              ((convert e (input.drop read)
                (prepareCap capT acc.length - acc.length)).read)).length =
              (input.drop read).length -
                (convert e (input.drop read)
                  (prepareCap capT acc.length - acc.length)).read :=
            List.length_drop _ _
          omega
      rw [ih _ _ _ hcap2 hfuel2]
      rw [hd]
      rw [← hdz]
      rw [emap_append]
    | incomplete =>
      rw [convert_incomplete_convertAll e (input.drop read)
        (prepareCap capT acc.length - acc.length) hst]
      rfl
    | invalid =>
      rw [convert_invalid_convertAll e (input.drop read)
        (prepareCap capT acc.length - acc.length) hst]
      rfl

/-- The one-shot growth loop computes exactly the total conversion. -/
theorem iconv_eq_convertAll (e : UnitEngine) (input : List Nat) :
    iconv e input = convertAll e input := by
  unfold iconv
  rw [iconvLoop_eq_aux e input _ 0 MIN_WRITE []
    (by simp [MIN_WRITE])
    (by
      simp only [List.drop_zero, List.length_nil]
      have : neededCap e input + 1 - (MIN_WRITE - 0) ≤ neededCap e input + 1 := by omega
      omega)]
  simp only [List.drop_zero]
  exact emap_nil _

/-! Correctness of the streaming reader.  `readLoop_spec` describes one
`IconvReader::read` call on a convertible stream: it returns a prefix of the
remaining conversion output and leaves a unit-aligned remainder. -/

theorem emap_ok_inv {o : List Nat} {x : Except IconvError (List Nat)} {v : List Nat}
    (h : x.map (fun u => o ++ u) = .ok v) : ∃ u, x = .ok u ∧ o ++ u = v := by
  cases x with
  | ok u =>
    refine ⟨u, rfl, ?_⟩
    simpa [Except.map] using h
  | error err => simp [Except.map] at h

theorem take_min_write_nil {src : List Nat} (h : src.take MIN_WRITE = []) : src = [] := by
  cases src with
  | nil => rfl
  | cons a l => simp [MIN_WRITE] at h

theorem readLoop_spec (e : UnitEngine) (k : Nat) :
    ∀ (fuel : Nat) (src staged wrote curOut : List Nat),
      src.length < fuel →
      convertAll e (staged ++ src) = .ok curOut →
      (wrote = [] → neededCap e (staged ++ src) ≤ k) →
      ∃ w st2 sr2 rest d,
        readLoopFuel e k fuel src staged wrote = .ok (wrote ++ w, st2, sr2) ∧
        convertAll e (st2 ++ sr2) = .ok rest ∧
        w ++ rest = curOut ∧
        st2 ++ sr2 = (staged ++ src).drop d ∧
        neededCap e (st2 ++ sr2) ≤ neededCap e (staged ++ src) ∧
        (w ≠ [] → 1 ≤ d) ∧
        (wrote ++ w = [] → st2 = [] ∧ sr2 = []) := by
  intro fuel
  induction fuel with
  | zero =>
    intro src staged wrote curOut hfuel
    omega
  | succ fuel ih =>
    intro src staged wrote curOut hfuel hcur hneed
    have hsplit : (staged ++ src.take MIN_WRITE) ++ src.drop MIN_WRITE = staged ++ src := by
      rw [List.append_assoc, List.take_append_drop]
    have hreadle := convert_read_le e (staged ++ src.take MIN_WRITE) (k - wrote.length)
    have hdrop_eq : ((staged ++ src.take MIN_WRITE) ++ src.drop MIN_WRITE).drop
        ((convert e (staged ++ src.take MIN_WRITE) (k - wrote.length)).read) =
        (staged ++ src.take MIN_WRITE).drop
          ((convert e (staged ++ src.take MIN_WRITE) (k - wrote.length)).read) ++
          src.drop MIN_WRITE :=
      List.drop_append_of_le_length hreadle
    have hdec := convertAll_decomp e (staged ++ src.take MIN_WRITE) (src.drop MIN_WRITE)
      (k - wrote.length)
    rw [hsplit] at hdec
    rw [hcur] at hdec
    have hrest := emap_ok_inv hdec.symm
    obtain ⟨rest0, hok0, hcat0⟩ := hrest
    have hneedle := neededCap_drop_le e (staged ++ src.take MIN_WRITE) (src.drop MIN_WRITE)
      (k - wrote.length)
    rw [hsplit] at hneedle
    simp only [readLoopFuel]
    cases hst : (convert e (staged ++ src.take MIN_WRITE) (k - wrote.length)).status with
    | ok =>
      refine ⟨(convert e (staged ++ src.take MIN_WRITE) (k - wrote.length)).out,
        (staged ++ src.take MIN_WRITE).drop
          ((convert e (staged ++ src.take MIN_WRITE) (k - wrote.length)).read),
        src.drop MIN_WRITE, rest0,
        (convert e (staged ++ src.take MIN_WRITE) (k - wrote.length)).read,
        rfl, hok0, hcat0, ?_, hneedle, ?_, ?_⟩
      · rw [← hdrop_eq, hsplit]
      · intro hw
        have : (convert e (staged ++ src.take MIN_WRITE) (k - wrote.length)).read ≠ 0 := by
          intro h0
          exact hw ((convert_read_zero_iff e _ _).mp h0)
        omega
      · intro hempty
        have hout0 : (convert e (staged ++ src.take MIN_WRITE) (k - wrote.length)).out = [] :=
          (List.append_eq_nil.mp hempty).2
        have hr0 : (convert e (staged ++ src.take MIN_WRITE) (k - wrote.length)).read = 0 :=
          (convert_read_zero_iff e _ _).mpr hout0
        have hlen := convert_ok_read e (staged ++ src.take MIN_WRITE) (k - wrote.length) hst
        rw [hr0] at hlen
        have hstaged2 : staged ++ src.take MIN_WRITE = [] :=
          List.eq_nil_of_length_eq_zero hlen.symm
        obtain ⟨hstg, htake⟩ := List.append_eq_nil.mp hstaged2
        have hsrc : src = [] := take_min_write_nil htake
        subst hsrc
        subst hstg
        exact ⟨by simp [hr0], by simp⟩
    | noSpace =>
      have hcond : 0 < (wrote ++
          (convert e (staged ++ src.take MIN_WRITE) (k - wrote.length)).out).length := by
        by_contra hcon
        have hempty : (wrote ++
            (convert e (staged ++ src.take MIN_WRITE) (k - wrote.length)).out) = [] := by
          cases hx : wrote ++ (convert e (staged ++ src.take MIN_WRITE) (k - wrote.length)).out with
          | nil => rfl
          | cons y ys => rw [hx] at hcon; simp at hcon
        obtain ⟨hw0, hout0⟩ := List.append_eq_nil.mp hempty
        have hr0 : (convert e (staged ++ src.take MIN_WRITE) (k - wrote.length)).read = 0 :=
          (convert_read_zero_iff e _ _).mpr hout0
        obtain ⟨c2, o2, hstep2, hlt2⟩ :=
          convert_noSpace_stop e (staged ++ src.take MIN_WRITE) (k - wrote.length) hst
        rw [hr0, List.drop_zero] at hstep2
        rw [hout0] at hlt2
        simp only [List.length_nil, Nat.sub_zero] at hlt2
        have hstepfull := e.step_mono _ (src.drop MIN_WRITE) c2 o2 hstep2
        rw [hsplit] at hstepfull
        have hfirst := neededCap_first e hstepfull
        have hk := hneed hw0
        rw [hw0] at hlt2
        simp only [List.length_nil, Nat.sub_zero] at hlt2
        omega
      rw [if_pos hcond]
      refine ⟨(convert e (staged ++ src.take MIN_WRITE) (k - wrote.length)).out,
        (staged ++ src.take MIN_WRITE).drop
          ((convert e (staged ++ src.take MIN_WRITE) (k - wrote.length)).read),
        src.drop MIN_WRITE, rest0,
        (convert e (staged ++ src.take MIN_WRITE) (k - wrote.length)).read,
        rfl, hok0, hcat0, ?_, hneedle, ?_, ?_⟩
      · rw [← hdrop_eq, hsplit]
      · intro hw
        have : (convert e (staged ++ src.take MIN_WRITE) (k - wrote.length)).read ≠ 0 := by
          intro h0
          exact hw ((convert_read_zero_iff e _ _).mp h0)
        omega
      · intro hempty
        rw [hempty] at hcond
        simp at hcond
    | incomplete =>
      by_cases hn : (src.take MIN_WRITE).length = 0
      · exfalso
        have htake : src.take MIN_WRITE = [] := List.eq_nil_of_length_eq_zero hn
        have hsrc : src = [] := take_min_write_nil htake
        subst hsrc
        have hstaged2 : staged ++ ([] : List Nat).take MIN_WRITE = staged ++ [] := rfl
        have hconv := convert_incomplete_convertAll e
          (staged ++ ([] : List Nat).take MIN_WRITE) (k - wrote.length) hst
        rw [hstaged2] at hconv
        rw [hconv] at hcur
        cases hcur
      · rw [if_neg hn]
        have hsrcne : src ≠ [] := by
          intro h0
          subst h0
          simp at hn
        have hsrclen : 0 < src.length := List.length_pos.mpr hsrcne
        have hfuel2 : (src.drop MIN_WRITE).length < fuel := by
          rw [List.length_drop]
          have hmv : MIN_WRITE = 4096 := rfl
          omega
        have hok2 : convertAll e
            ((staged ++ src.take MIN_WRITE).drop
              ((convert e (staged ++ src.take MIN_WRITE) (k - wrote.length)).read) ++
              src.drop MIN_WRITE) = .ok rest0 := hok0
        have hneed2 : wrote ++ (convert e (staged ++ src.take MIN_WRITE)
            (k - wrote.length)).out = [] →
            neededCap e ((staged ++ src.take MIN_WRITE).drop
              ((convert e (staged ++ src.take MIN_WRITE) (k - wrote.length)).read) ++
              src.drop MIN_WRITE) ≤ k := by
          intro hempty
          obtain ⟨hw0, hout0⟩ := List.append_eq_nil.mp hempty
          have hr0 : (convert e (staged ++ src.take MIN_WRITE) (k - wrote.length)).read = 0 :=
            (convert_read_zero_iff e _ _).mpr hout0
          rw [hr0, List.drop_zero, hsplit]
          exact hneed hw0
        obtain ⟨w2, st2, sr2, rest2, d2, hres2, hok3, hcat2, hdrop2, hneed3, hpos2, hemp2⟩ :=
          ih (src.drop MIN_WRITE)
            ((staged ++ src.take MIN_WRITE).drop
              ((convert e (staged ++ src.take MIN_WRITE) (k - wrote.length)).read))
            (wrote ++ (convert e (staged ++ src.take MIN_WRITE) (k - wrote.length)).out)
            rest0 hfuel2 hok2 hneed2
        refine ⟨(convert e (staged ++ src.take MIN_WRITE) (k - wrote.length)).out ++ w2,
          st2, sr2, rest2,
          (convert e (staged ++ src.take MIN_WRITE) (k - wrote.length)).read + d2,
          ?_, hok3, ?_, ?_, ?_, ?_, ?_⟩
        · rw [hres2]
          rw [List.append_assoc]
        · rw [List.append_assoc, hcat2, hcat0]
        · rw [hdrop2, ← hdrop_eq, hsplit, List.drop_drop]
        · calc neededCap e (st2 ++ sr2) ≤ _ := hneed3
            _ ≤ _ := by rw [hdrop_eq.symm, hsplit] at hneedle ⊢; exact hneedle
        · intro hw
          by_cases hout : (convert e (staged ++ src.take MIN_WRITE) (k - wrote.length)).out = []
          · have hr0 : (convert e (staged ++ src.take MIN_WRITE) (k - wrote.length)).read = 0 :=
              (convert_read_zero_iff e _ _).mpr hout
            have hw2 : w2 ≠ [] := by
              intro h0
              rw [hout, h0] at hw
              exact hw rfl
            have := hpos2 hw2
            omega
          · have : (convert e (staged ++ src.take MIN_WRITE) (k - wrote.length)).read ≠ 0 := by
              intro h0
              exact hout ((convert_read_zero_iff e _ _).mp h0)
            omega
        · intro hempty
          rw [← List.append_assoc] at hempty
          exact hemp2 hempty
    | invalid =>
      exfalso
      obtain ⟨hstep2, hne2⟩ :=
        convert_invalid_stop e (staged ++ src.take MIN_WRITE) (k - wrote.length) hst
      have hstepfull := e.invalid_mono _ (src.drop MIN_WRITE) hstep2
      have hnefull : (staged ++ src.take MIN_WRITE).drop
          ((convert e (staged ++ src.take MIN_WRITE) (k - wrote.length)).read) ++
          src.drop MIN_WRITE ≠ [] := by
        intro h0
        exact hne2 (List.append_eq_nil.mp h0).1
      have hconv := convertAll_invalid_step e hnefull hstepfull
      rw [hconv] at hok0
      cases hok0

theorem streamLoop_spec (e : UnitEngine) (k : Nat) :
    ∀ (fuel : Nat) (src staged acc rest : List Nat),
      (staged ++ src).length < fuel →
      convertAll e (staged ++ src) = .ok rest →
      neededCap e (staged ++ src) ≤ k →
      streamLoopFuel e k fuel src staged acc = .ok (acc ++ rest) := by
  intro fuel
  induction fuel with
  | zero =>
    intro src staged acc rest hfuel
    omega
  | succ fuel ih =>
    intro src staged acc rest hfuel hcur hneed
    obtain ⟨w, st2, sr2, rest2, d, hres, hok2, hcat, hdrop, hneed2, hpos, hemp⟩ :=
      readLoop_spec e k (src.length + 1) src staged [] rest (Nat.lt_succ_self _) hcur
        (fun _ => hneed)
    simp only [streamLoopFuel, readOnce]
    rw [hres]
    simp only [List.nil_append]
    by_cases hw : w = []
    · rw [if_pos hw]
      obtain ⟨hst2, hsr2⟩ := hemp (by simp [hw])
      subst hst2
      subst hsr2
      simp only [List.nil_append] at hok2
      rw [convertAll_nil] at hok2
      cases hok2
      subst hw
      simp at hcat
      subst hcat
      simp
    · rw [if_neg hw]
      have hlen2 : (st2 ++ sr2).length < fuel := by
        have hd1 := hpos hw
        have hne0 : staged ++ src ≠ [] := by
          intro h0
          rw [h0, convertAll_nil] at hcur
          cases hcur
          exact hw (List.append_eq_nil.mp hcat).1
        have hlp : 0 < (staged ++ src).length := List.length_pos.mpr hne0
        rw [hdrop, List.length_drop]
        omega
      have := ih sr2 st2 (acc ++ w) rest2 hlen2 hok2 (le_trans hneed2 hneed)
      rw [this]
      rw [List.append_assoc, hcat]

theorem streamRead_eq_of_convertAll (e : UnitEngine) (k : Nat) (input out : List Nat)
    (hneed : neededCap e input ≤ k) (hok : convertAll e input = .ok out) :
    streamRead e k input = .ok out := by
  unfold streamRead
  have h := streamLoop_spec e k (input.length + 1) input [] [] out
    (by simp) (by simpa using hok) (by simpa using hneed)
  simpa using h

/-! Error classification of the total conversion, and UTF-8 validity of
converted output when every unit of the engine emits valid UTF-8. -/

theorem emap_error_inv {f : List Nat → List Nat} {x : Except IconvError (List Nat)}
    {err : IconvError} (h : x.map f = .error err) : x = .error err := by
  cases x with
  | ok u => simp [Except.map] at h
  | error e2 => simpa [Except.map] using h

theorem convertAll_error_cases_aux (e : UnitEngine) :
    ∀ (n : Nat) (l : List Nat) (err : IconvError), l.length ≤ n →
      convertAll e l = .error err →
      err = .IncompleteInput ∨ err = .InvalidInput := by
  intro n
  induction n with
  | zero =>
    intro l err hn h
    have hl : l = [] := List.eq_nil_of_length_eq_zero (Nat.le_zero.mp hn)
    subst hl
    rw [convertAll_nil] at h
    cases h
  | succ n ih =>
    intro l err hn h
    by_cases hl : l = []
    · subst hl; rw [convertAll_nil] at h; cases h
    · cases hs : e.step l with
      | unit c o =>
        have hc := e.consume_pos l c o hs
        have hlen : 0 < l.length := List.length_pos.mpr hl
        rw [convertAll_unit e hs] at h
        have h2 := emap_error_inv h
        exact ih (l.drop c) err (by rw [List.length_drop]; omega) h2
      | incomplete =>
        rw [convertAll_incomplete_step e hl hs] at h
        cases h
        exact Or.inl rfl
      | invalid =>
        rw [convertAll_invalid_step e hl hs] at h
        cases h
        exact Or.inr rfl

theorem convertAll_error_cases (e : UnitEngine) (l : List Nat) (err : IconvError)
    (h : convertAll e l = .error err) :
    err = .IncompleteInput ∨ err = .InvalidInput :=
  convertAll_error_cases_aux e l.length l err le_rfl h

theorem utf8_append_aux :
    ∀ (n : Nat),
      (∀ a b, a.length ≤ n → utf8Valid a = true → utf8Valid b = true →
        utf8Valid (a ++ b) = true) ∧
      (∀ a b lo hi more, a.length ≤ n → utf8Tail a lo hi more = true →
        utf8Valid b = true → utf8Tail (a ++ b) lo hi more = true) := by
  intro n
  induction n with
  | zero =>
    constructor
    · intro a b hn ha hb
      have hl : a = [] := List.eq_nil_of_length_eq_zero (Nat.le_zero.mp hn)
      subst hl
      simpa using hb
    · intro a b lo hi more hn ha hb
      have hl : a = [] := List.eq_nil_of_length_eq_zero (Nat.le_zero.mp hn)
      subst hl
      simp [utf8Tail] at ha
  | succ n ih =>
    obtain ⟨ihV, ihT⟩ := ih
    constructor
    · intro a b hn ha hb
      cases a with
      | nil => simpa using hb
      | cons x t =>
        simp only [List.length_cons] at hn
        rw [List.cons_append]
        simp only [utf8Valid] at ha ⊢
        split_ifs at ha ⊢ <;>
          first
          | exact ihV t b (by omega) ha hb
          | exact ihT t b _ _ _ (by omega) ha hb
    · intro a b lo hi more hn ha hb
      cases a with
      | nil => simp [utf8Tail] at ha
      | cons c t =>
        simp only [List.length_cons] at hn
        rw [List.cons_append]
        cases more with
        | zero =>
          simp only [utf8Tail, Bool.and_eq_true] at ha ⊢
          exact ⟨ha.1, ihV t b (by omega) ha.2 hb⟩
        | succ m =>
          simp only [utf8Tail, Bool.and_eq_true] at ha ⊢
          exact ⟨ha.1, ihT t b 128 191 m (by omega) ha.2 hb⟩

theorem utf8Valid_append (a b : List Nat) (ha : utf8Valid a = true)
    (hb : utf8Valid b = true) : utf8Valid (a ++ b) = true :=
  (utf8_append_aux a.length).1 a b le_rfl ha hb

theorem convertAll_utf8Valid_aux (e : UnitEngine)
    (hu : ∀ l c o, e.step l = .unit c o → utf8Valid o = true) :
    ∀ (n : Nat) (l v : List Nat), l.length ≤ n →
      convertAll e l = .ok v → utf8Valid v = true := by
  intro n
  induction n with
  | zero =>
    intro l v hn h
    have hl : l = [] := List.eq_nil_of_length_eq_zero (Nat.le_zero.mp hn)
    subst hl
    rw [convertAll_nil] at h
    cases h
    simp [utf8Valid]
  | succ n ih =>
    intro l v hn h
    by_cases hl : l = []
    · subst hl
      rw [convertAll_nil] at h
      cases h
      simp [utf8Valid]
    · cases hs : e.step l with
      | unit c o =>
        have hc := e.consume_pos l c o hs
        have hlen : 0 < l.length := List.length_pos.mpr hl
        rw [convertAll_unit e hs] at h
        obtain ⟨u, hu2, hcat⟩ := emap_ok_inv h
        have hv := ih (l.drop c) u (by rw [List.length_drop]; omega) hu2
        rw [← hcat]
        exact utf8Valid_append o u (hu l c o hs) hv
      | incomplete =>
        rw [convertAll_incomplete_step e hl hs] at h
        cases h
      | invalid =>
        rw [convertAll_invalid_step e hl hs] at h
        cases h

theorem convertAll_utf8Valid (e : UnitEngine)
    (hu : ∀ l c o, e.step l = .unit c o → utf8Valid o = true)
    (l v : List Nat) (h : convertAll e l = .ok v) : utf8Valid v = true :=
  convertAll_utf8Valid_aux e hu l.length l v le_rfl h

/-! The claims. -/

/-- C1: for every string s representable in encoding E without loss — the
engine pair for E encodes s to some t and decodes t back to s — decoding the
result of encoding s returns exactly s: decode(encode(s, E)?, E) = Ok(s). -/
theorem roundtrip_decode_encode (eE eD : UnitEngine) (s t : List Nat)
    (henc : convertAll eE s = .ok t) (hdec : convertAll eD t = .ok s) :
    (encode (.ok eE) s).bind (fun v => decode (.ok eD) v) = .ok s := by
  have h1 : encode (.ok eE) s = .ok t := by
    show iconv eE s = .ok t
    rw [iconv_eq_convertAll]
    exact henc
  rw [h1]
  show decode (.ok eD) t = .ok s
  show iconv eD t = .ok s
  rw [iconv_eq_convertAll]
  exact hdec

theorem roundtrip_decode_encode_witness :
    (encode (.ok toyAscii) [104, 105]).bind (fun v => decode (.ok toyAscii) v) =
      .ok [104, 105] :=
  roundtrip_decode_encode toyAscii toyAscii [104, 105] [104, 105] rfl rfl

/-- C2: whenever decode returns Ok, the bytes of the produced String are
valid UTF-8, provided every unit the engine emits is valid UTF-8 (the
guarantee of the platform converter for target encoding UTF-8); so the
String built with from_utf8_unchecked is well formed. -/
theorem decode_ok_utf8Valid (e : UnitEngine)
    (hu : ∀ l c o, e.step l = .unit c o → utf8Valid o = true)
    (input s : List Nat) (h : decode (.ok e) input = .ok s) :
    utf8Valid s = true := by
  have h2 : iconv e input = .ok s := h
  rw [iconv_eq_convertAll] at h2
  exact convertAll_utf8Valid e hu input s h2

theorem decode_ok_utf8Valid_witness : utf8Valid [104, 105] = true := by
  refine decode_ok_utf8Valid toyAscii ?_ [104, 105] [104, 105] rfl
  intro l c o hstep
  cases l with
  | nil => simp [toyAscii, asciiStep] at hstep
  | cons b t =>
    simp only [toyAscii, asciiStep] at hstep
    split at hstep
    · cases hstep
      have hb : b ≤ 127 := by omega
      simp [utf8Valid, hb]
    · cases hstep

/-- C3 counterexample: with a 1-byte read buffer and an engine whose unit
produces two output bytes, the streaming read errors with
NotSufficientOutput and produces nothing, while the one-shot conversion of
the same input succeeds — so a read-buffer size of 1 byte does not always
reproduce the one-shot output. -/
theorem stream_chunk1_differs :
    iconv toyWide [200, 65] = .ok [150, 65] ∧
    streamRead toyWide 1 [200, 65] = .error .NotSufficientOutput ∧
    1 ≤ ([200, 65] : List Nat).length := by
  exact ⟨rfl, rfl, by decide⟩

/-- C3 (amended): for every input and every read-buffer size k large enough
that the output of each conversion unit of the input fits in k (in
particular any k at least the largest unit output), repeatedly calling
IconvReader::read with k-byte buffers until end of stream yields,
concatenated, byte for byte the one-shot iconv output, including when chunk
boundaries split multi-byte sequences; with a smaller buffer a read call can
fail with an error even on convertible input. -/
theorem stream_eq_iconv_of_unit_fits (e : UnitEngine) (k : Nat) (input out : List Nat)
    (hneed : neededCap e input ≤ k) (hok : iconv e input = .ok out) :
    streamRead e k input = .ok out := by
  rw [iconv_eq_convertAll] at hok
  exact streamRead_eq_of_convertAll e k input out hneed hok

theorem stream_eq_iconv_witness :
    streamRead toyWide 2 [200, 65, 66] = .ok [150, 65, 66] :=
  stream_eq_iconv_of_unit_fits toyWide 2 [200, 65, 66] [150, 65, 66] (by decide) rfl

/-- C4: an input whose unit decomposition reaches an illegal sequence makes
the one-shot conversion return the error InvalidInput, never Ok with a
truncated or substituted result. -/
theorem invalid_input_fatal (e : UnitEngine) (input : List Nat)
    (h : convertAll e input = .error .InvalidInput) :
    iconv e input = .error .InvalidInput ∧ ∀ v, iconv e input ≠ .ok v := by
  constructor
  · rw [iconv_eq_convertAll]
    exact h
  · intro v hv
    rw [iconv_eq_convertAll, h] at hv
    cases hv

theorem invalid_input_fatal_witness : iconv toyAscii [200] = .error .InvalidInput :=
  (invalid_input_fatal toyAscii [200] rfl).1

/-- C5: when the platform rejects the encoding-name pair with EINVAL,
construction fails with ConversionNotSupport, and therefore iconv, encode,
decode, IconvReader::new and IconvWriter::new all fail with that error for
every input, before any input byte is read or converted. -/
theorem unsupported_pair_fails_construction (platform : Except Int UnitEngine)
    (h : platform = .error EINVAL) :
    (∀ input, iconvNamed platform input = .error .ConversionNotSupport) ∧
    (∀ input, encode platform input = .error .ConversionNotSupport) ∧
    (∀ input, decode platform input = .error .ConversionNotSupport) ∧
    (∀ src, IconvReaderNew platform src = .error .ConversionNotSupport) ∧
    IconvWriterNew platform = .error .ConversionNotSupport := by
  subst h
  exact ⟨fun _ => rfl, fun _ => rfl, fun _ => rfl, fun _ => rfl, rfl⟩

theorem unsupported_pair_fails_witness :
    iconvNamed (.error EINVAL) [9] = .error .ConversionNotSupport :=
  (unsupported_pair_fails_construction (.error EINVAL) rfl).1 [9]

/-- C6: the one-shot convert-with-growth function iconv never returns
NotSufficientOutput — the growth loop absorbs it — and every fatal error of
the underlying conversion is returned alone, with all output produced so far
discarded (the Err carries only the error). -/
theorem iconv_growth_error_policy (e : UnitEngine) (input : List Nat) :
    iconv e input ≠ .error .NotSufficientOutput ∧
    (∀ err, convertAll e input = .error err → iconv e input = .error err) := by
  constructor
  · intro hcon
    rw [iconv_eq_convertAll] at hcon
    rcases convertAll_error_cases e input _ hcon with h | h <;> cases h
  · intro err herr
    rw [iconv_eq_convertAll]
    exact herr

theorem iconv_growth_error_policy_witness :
    iconv toyWide [200] = .error .IncompleteInput :=
  (iconv_growth_error_policy toyWide [200]).2 .IncompleteInput rfl

/-- C7: when a conversion step inside IconvReader::read reports insufficient
output space, the bytes it consumed are removed from the input staging
buffer, and the call returns Ok with the bytes written when that is more
than zero (not treated as an error); with zero bytes written it returns the
error (buffer too small to hold even one unit). -/
theorem reader_read_insufficient_output (e : UnitEngine) (k fuel : Nat)
    (src staged wrote : List Nat)
    (h : (convert e (staged ++ src.take MIN_WRITE) (k - wrote.length)).status = .noSpace) :
    readLoopFuel e k (fuel + 1) src staged wrote =
      if 0 < (wrote ++ (convert e (staged ++ src.take MIN_WRITE)
          (k - wrote.length)).out).length
      then .ok (wrote ++ (convert e (staged ++ src.take MIN_WRITE)
          (k - wrote.length)).out,
        (staged ++ src.take MIN_WRITE).drop
          ((convert e (staged ++ src.take MIN_WRITE) (k - wrote.length)).read),
        src.drop MIN_WRITE)
      else .error .NotSufficientOutput := by
  simp only [readLoopFuel]
  rw [h]

theorem reader_read_insufficient_witness :
    readLoopFuel toyWide 3 1 [] [200, 65, 200, 66] [] =
      .ok ([150, 65], [200, 66], []) := by
  rw [reader_read_insufficient_output toyWide 3 0 [] [200, 65, 200, 66] [] rfl]
  rfl

/-- C8 counterexample: a read call during which the conversion reports
IncompleteInput while the source pulls zero new bytes (true end of stream)
and undecoded bytes remain staged can still return Ok — here Ok with one
byte written and the byte 200 left undecoded — rather than an error, because
the code only fails when nothing was written in the call. -/
theorem reader_incomplete_eof_returns_ok :
    readOnce toyWide 4 [65, 200] [] = .ok ([65], [200], []) ∧
    (convert toyWide ([200] ++ ([] : List Nat).take MIN_WRITE) (4 - [65].length)).status =
      .incomplete ∧
    ([] : List Nat).take MIN_WRITE = [] ∧
    ([200] : List Nat) ≠ [] := by
  exact ⟨rfl, rfl, rfl, by decide⟩

/-- C8 (amended): when the conversion inside IconvReader::read reports
IncompleteInput and the source returned zero newly pulled bytes while
undecoded bytes remain, the truncated trailing sequence is fatal — the call
returns an error — exactly when zero bytes have been written by this call;
with bytes already written the call returns Ok with their count and the
error is only surfaced by a later call that makes no progress. -/
theorem reader_incomplete_eof_error_iff_zero_written (e : UnitEngine) (k fuel : Nat)
    (staged wrote : List Nat)
    (h : (convert e (staged ++ ([] : List Nat).take MIN_WRITE)
      (k - wrote.length)).status = .incomplete) :
    readLoopFuel e k (fuel + 1) [] staged wrote =
      if 0 < (wrote ++ (convert e (staged ++ ([] : List Nat).take MIN_WRITE)
          (k - wrote.length)).out).length
      then .ok (wrote ++ (convert e (staged ++ ([] : List Nat).take MIN_WRITE)
          (k - wrote.length)).out,
        (staged ++ ([] : List Nat).take MIN_WRITE).drop
          ((convert e (staged ++ ([] : List Nat).take MIN_WRITE) (k - wrote.length)).read),
        ([] : List Nat).drop MIN_WRITE)
      else .error .IncompleteInput := by
  simp only [readLoopFuel]
  rw [h]
  simp only [List.take_nil, List.length_nil, List.drop_nil, if_true]

theorem reader_incomplete_eof_witness :
    readLoopFuel toyWide 4 1 [] [200] [] = .error .IncompleteInput := by
  rw [reader_incomplete_eof_error_iff_zero_written toyWide 4 0 [200] [] rfl]
  rfl

/-- C9: IconvWriter::flush performs one more conversion attempt through a
write with empty input; if that errors the error propagates with the state
as the write left it, if the input staging buffer is still non-empty the
flush fails with IncompleteInput keeping the staged data, and otherwise all
staged output is written to the sink and the sink flushed. -/
theorem writer_flush_spec (e : UnitEngine) (s : WState) :
    (∀ err s1, writerWrite e [] s = (.error err, s1) →
      writerFlush e s = (.error err, s1)) ∧
    (∀ n s1, writerWrite e [] s = (.ok n, s1) → s1.inputB ≠ [] →
      writerFlush e s = (.error .IncompleteInput, s1)) ∧
    (∀ n s1, writerWrite e [] s = (.ok n, s1) → s1.inputB = [] →
      writerFlush e s = (.ok (), ⟨[], [], s1.sink ++ s1.outputB⟩)) := by
  refine ⟨?_, ?_, ?_⟩
  · intro err s1 hw
    unfold writerFlush
    rw [hw]
  · intro n s1 hw hne
    unfold writerFlush
    rw [hw]
    show (if s1.inputB = [] then
        ((.ok (), ⟨s1.inputB, [], s1.sink ++ s1.outputB⟩) :
          Except IconvError Unit × WState)
      else (.error .IncompleteInput, s1)) = (.error .IncompleteInput, s1)
    rw [if_neg hne]
  · intro n s1 hw he
    unfold writerFlush
    rw [hw]
    show (if s1.inputB = [] then
        ((.ok (), ⟨s1.inputB, [], s1.sink ++ s1.outputB⟩) :
          Except IconvError Unit × WState)
      else (.error .IncompleteInput, s1)) = (.ok (), ⟨[], [], s1.sink ++ s1.outputB⟩)
    rw [if_pos he, he]

theorem writer_flush_witness :
    writerFlush toyWide ⟨[200], [], []⟩ = (.error .IncompleteInput, ⟨[200], [], []⟩) :=
  (writer_flush_spec toyWide ⟨[200], [], []⟩).2.1 0 ⟨[200], [], []⟩ rfl (by decide)

/-- C10: an encoding-name argument containing an interior NUL byte makes
Iconv::new panic through CString::new(...).unwrap() — modelled as the none
outcome — instead of returning an IconvError, and the panic propagates to
the iconv entry point. -/
theorem interior_nul_panics (platform : Except Int UnitEngine)
    (fromE toE input : List Nat)
    (h : fromE.contains 0 = true ∨ toE.contains 0 = true) :
    IconvNewChecked platform fromE toE = none ∧
    iconvChecked platform fromE toE input = none := by
  have hnew : IconvNewChecked platform fromE toE = none := by
    unfold IconvNewChecked cstringNew
    rcases h with h | h
    · rw [if_pos h]
    · rw [if_pos h]
      by_cases hf : fromE.contains 0 = true
      · rw [if_pos hf]
      · rw [if_neg hf]
  refine ⟨hnew, ?_⟩
  unfold iconvChecked
  rw [hnew]

theorem interior_nul_panics_witness :
    IconvNewChecked (.ok toyAscii) [65, 0, 66] [66] = none ∧
    iconvChecked (.ok toyAscii) [65, 0, 66] [66] [] = none :=
  interior_nul_panics (.ok toyAscii) [65, 0, 66] [66] [] (Or.inl (by decide))
